import Mathlib

/-!
Shallow embedding of the retrieval core of the thesis search engine
(`bm25_with_dictionary_improved.py`) and proofs of the specified
properties: front-coding decode and round-trip, the Levenshtein
edit-distance routine, the multi-stage spelling correction, the BM25
scorer with IDF damping, field boosting, candidate coverage filtering,
adaptive result filtering, and the `search` orchestration.

Strings are modelled as Lean `String`s (lists of characters); Python
floats are idealised as real numbers; Python dicts are modelled as
association lists looked up by key (first match), matching insertion
order semantics where the code relies on it.
-/

namespace SearchEngine

/-! ## Generic association-list lookup (Python dict access) -/

/-- Lookup in an association list (models Python `d[k]` / `d.get(k)`). -/
def lookupA {α : Type} : List (String × α) → String → Option α
  | [], _ => none
  | (k, v) :: rest, key => if k = key then some v else lookupA rest key

/-! ## Front coding (`decode_frontcoded`) -/

/-- Split a character list at the first occurrence of `sep`
(models Python `s.split(sep, 1)` when `sep` occurs in `s`). -/
def splitOnceChar (sep : Char) : List Char → List Char × List Char
  | [] => ([], [])
  | c :: cs =>
    if c = sep then ([], cs)
    else
      let r := splitOnceChar sep cs
      (c :: r.1, r.2)

/-- Split a character list on every occurrence of `sep`
(models Python `s.split(sep)`; empty segments are kept). -/
def splitSepChar (sep : Char) : List Char → List (List Char)
  | [] => [[]]
  | c :: cs =>
    if c = sep then [] :: splitSepChar sep cs
    else
      match splitSepChar sep cs with
      | [] => [[c]]
      | h :: t => (c :: h) :: t

/-- `decode_frontcoded` on character lists, translated from the source:
no `*` means the whole string is the single term; otherwise split once
on `*`; an empty suffix part yields the prefix alone; otherwise each
`|`-separated suffix is appended to the prefix. -/
def decodeFC (l : List Char) : List (List Char) :=
  if '*' ∈ l then
    let p := (splitOnceChar '*' l).1
    let sufs := (splitOnceChar '*' l).2
    if sufs = [] then [p]
    else (splitSepChar '|' sufs).map (fun s => p ++ s)
  else [l]

/-- `decode_frontcoded` from the source, on `String`. -/
def decode_frontcoded (s : String) : List String :=
  (decodeFC s.data).map (fun l => String.mk l)

/-- Join a list of segments with `sep` between consecutive segments. -/
def intercalateChar (sep : Char) : List (List Char) → List Char
  | [] => []
  | [s] => s
  | s :: t :: ts => s ++ sep :: intercalateChar sep (t :: ts)

/-- Modelled from the spec: the front-coding encoder of the (out of
scope) index-build pipeline. A block stores the shared prefix once,
followed by `*` and the `|`-separated per-term suffixes
(`"prefix*suf1|suf2|..."`). -/
def encodeFC (pre : List Char) (sufs : List (List Char)) : List Char :=
  pre ++ '*' :: intercalateChar '|' sufs

/-! ## Edit distance (`edit_distance`) -/

/-- Substitution cost of the Levenshtein recurrence. -/
def chCost (a b : Char) : ℕ := if a = b then 0 else 1

/-- Reference recursive Levenshtein edit distance (insertion, deletion
and substitution each cost 1). -/
def lev : List Char → List Char → ℕ
  | [], ys => ys.length
  | x :: xs, [] => (x :: xs).length
  | x :: xs, y :: ys =>
    min (lev xs ys + chCost x y)
      (min (lev (x :: xs) ys + 1) (lev xs (y :: ys) + 1))
termination_by a b => a.length + b.length
decreasing_by all_goals simp_arith

/-- The inner loop of the single-row dynamic program: given the tail of
`s2` still to process, the corresponding tail of the previous row, and
the last value written to the current row, produce the rest of the
current row.  Mirrors the Python `for j, c2 in enumerate(s2)` loop with
`insertions = previous_row[j+1] + 1`, `deletions = current_row[j] + 1`,
`substitutions = previous_row[j] + (c1 != c2)`. -/
def rowAux (c1 : Char) : List Char → List ℕ → ℕ → List ℕ
  | [], _, _ => []
  | _ :: _, [], _ => []
  | _ :: _, [_], _ => []
  | c2 :: cs, p0 :: p1 :: ps, left =>
    let v := min (p1 + 1) (min (left + 1) (p0 + chCost c1 c2))
    v :: rowAux c1 cs (p1 :: ps) v

/-- The outer loop of the dynamic program: fold the rows over the
characters of `s1`, starting each row with `i + 1`. -/
def dpLoop (s2 : List Char) : List Char → ℕ → List ℕ → List ℕ
  | [], _, prev => prev
  | c1 :: cs, i, prev => dpLoop s2 cs (i + 1) ((i + 1) :: rowAux c1 s2 prev (i + 1))

/-- The body of `edit_distance` after the length swap: early return for
an empty second string, otherwise the last entry of the final DP row. -/
def editRaw (s1 s2 : List Char) : ℕ :=
  if s2.length = 0 then s1.length
  else ((dpLoop s2 s1 0 (List.range (s2.length + 1))).getLast?).getD 0

/-- `edit_distance` from the source: swap so the first argument is the
longer string, then run the single-row dynamic program. -/
def edit_distance (s1 s2 : List Char) : ℕ :=
  if s1.length < s2.length then editRaw s2 s1 else editRaw s1 s2

/-- Reversed prefixes of `β` prepended onto `γ`: the list
`[γ, β₀::γ, β₁::β₀::γ, …]` (length `β.length + 1`).  The `j`-th entry
is `(β.take j).reverse ++ γ`; these index the DP row entries. -/
def revPrefs (γ : List Char) : List Char → List (List Char)
  | [] => [γ]
  | c :: cs => γ :: revPrefs (c :: γ) cs

/-! ## Static configuration tables and constants -/

/-- BM25 parameter `K1 = 1.6`. -/
noncomputable def K1 : ℝ := 1.6

/-- BM25 parameter `B = 0.75`. -/
noncomputable def B : ℝ := 0.75

/-- `TITLE_BOOST = 5.5`. -/
noncomputable def TITLE_BOOST : ℝ := 5.5

/-- `KEYWORD_BOOST = 4.5`. -/
noncomputable def KEYWORD_BOOST : ℝ := 4.5

/-- `MAX_RESULTS_SPECIFIC = 25`. -/
def MAX_RESULTS_SPECIFIC : ℕ := 25

/-- `MAX_RESULTS_MODERATE = 40`. -/
def MAX_RESULTS_MODERATE : ℕ := 40

/-- `MAX_RESULTS_GENERIC = 55`. -/
def MAX_RESULTS_GENERIC : ℕ := 55

/-- `MIN_SCORE_THRESHOLD = 8.0`. -/
noncomputable def MIN_SCORE_THRESHOLD : ℝ := 8.0

/-- `MIN_TERM_COVERAGE = 0.65`, as the percentage 65 (the code computes
`int(len(core_terms) * 0.65)`, idealised as `len * 65 / 100` in ℕ). -/
def MIN_TERM_COVERAGE_PCT : ℕ := 65

/-- `IDEAL_TERM_COVERAGE = 0.85`. -/
noncomputable def IDEAL_TERM_COVERAGE : ℝ := 0.85

/-- `GENERIC_TERMS` stopword set. -/
def GENERIC_TERMS : List String :=
  ["dengan", "untuk", "pada", "yang", "dari", "dan", "atau", "ke", "oleh"]

/-- `DOMAIN_PATTERNS`: domain name, characteristic terms, boost factor
(in the insertion order of the source dict). -/
noncomputable def DOMAIN_PATTERNS : List (String × List String × ℝ) :=
  [("security", (["keamanan", "enkripsi", "pengamanan", "kriptografi", "security",
                  "steganografi", "watermark", "cipher", "citra", "digital"], 1.9)),
   ("ml_ai", (["machine", "learning", "neural", "deep", "klasifikasi",
               "prediksi", "algoritma", "cnn", "lstm", "svm", "naive", "bayes"], 1.8)),
   ("ui_ux", (["user", "interface", "antarmuka", "desain", "ui", "ux",
               "interaksi", "usability", "centered", "experience"], 1.7)),
   ("nlp", (["sentimen", "teks", "peringkasan", "topik", "chatbot",
             "nlp", "text", "mining", "sentiment", "analisis"], 1.8)),
   ("recommender", (["rekomendasi", "recommendation", "collaborative", "filtering"], 1.8)),
   ("medical", (["penyakit", "medis", "diagnosis", "kesehatan", "deteksi",
                 "jantung", "diabetes", "kanker", "stroke", "hospital"], 1.7)),
   ("iot", (["iot", "sensor", "arduino", "monitoring", "embedded"], 1.6)),
   ("business", (["business", "intelligence", "bi", "dashboard", "analitik"], 1.7)),
   ("mobile", (["mobile", "android", "smartphone", "aplikasi"], 1.6))]

/-- `_build_common_typos`: the static misspelling → canonical-term table
(insertion order of the source dict; keys are unique). -/
def common_typos : List (String × String) :=
  [("detksi", "deteksi"), ("deteksi", "deteksi"), ("penykti", "penyakit"),
   ("penykit", "penyakit"), ("penyakit", "penyakit"), ("jntung", "jantung"),
   ("jantng", "jantung"), ("jantung", "jantung"), ("diabtes", "diabetes"),
   ("diabetis", "diabetes"), ("kankr", "kanker"), ("kanker", "kanker"),
   ("strke", "stroke"), ("stroke", "stroke"), ("dagnosis", "diagnosis"),
   ("diagnosa", "diagnosis"), ("diagnosis", "diagnosis"), ("kesehtan", "kesehatan"),
   ("kesehatn", "kesehatan"),
   ("machin", "machine"), ("lerning", "learning"), ("learnnig", "learning"),
   ("klasifkasi", "klasifikasi"), ("klasifikasi", "klasifikasi"),
   ("algortima", "algoritma"), ("algoritma", "algoritma"),
   ("predksi", "prediksi"), ("prediksi", "prediksi"),
   ("sistem", "sistem"), ("sistim", "sistem"), ("aplikas", "aplikasi"),
   ("aplikasi", "aplikasi"), ("rekomndasi", "rekomendasi"),
   ("rekomendasi", "rekomendasi"), ("pencaruan", "pencarian"),
   ("pencarian", "pencarian"), ("pencrarian", "pencarian"),
   ("interfce", "interface"), ("interface", "interface"),
   ("antarmka", "antarmuka"), ("antarmuka", "antarmuka"),
   ("pengguna", "pengguna"), ("pemakai", "pengguna"),
   ("ontolgi", "ontologi"), ("ontologi", "ontologi"),
   ("jaringan", "jaringan"), ("jaringn", "jaringan")]

/-- `_build_synonyms`: term → related-terms table.  Python stores the
values as sets with unspecified iteration order; they are modelled as
lists in the written order. -/
def synonyms : List (String × List String) :=
  [("sistem", ["aplikasi", "program"]),
   ("aplikasi", ["sistem", "program"]),
   ("analisis", ["analisa"]),
   ("analisa", ["analisis"]),
   ("sentimen", ["sentiment"]),
   ("pencarian", ["search"]),
   ("rekomendasi", ["recommendation"]),
   ("klasifikasi", ["classification", "pengelompokan"]),
   ("deteksi", ["detection", "identifikasi", "pengenalan"]),
   ("detection", ["deteksi", "identifikasi"]),
   ("pengguna", ["user"]),
   ("user", ["pengguna"]),
   ("antarmuka", ["interface"]),
   ("interface", ["antarmuka"]),
   ("mobile", ["android"]),
   ("android", ["mobile"]),
   ("desain", ["design"]),
   ("design", ["desain"]),
   ("keamanan", ["security"]),
   ("security", ["keamanan"]),
   ("enkripsi", ["encryption"]),
   ("penyakit", ["disease"]),
   ("disease", ["penyakit"]),
   ("jantung", ["heart", "cardiac"]),
   ("heart", ["jantung"]),
   ("diagnosis", ["diagnosa"]),
   ("diagnosa", ["diagnosis"]),
   ("kesehatan", ["health"]),
   ("health", ["kesehatan"])]

/-- The lowercase alphabet iterated by the fuzzy block-key expansion. -/
def alphabet : List Char :=
  ['a', 'b', 'c', 'd', 'e', 'f', 'g', 'h', 'i', 'j', 'k', 'l', 'm',
   'n', 'o', 'p', 'q', 'r', 's', 't', 'u', 'v', 'w', 'x', 'y', 'z']

/-! ## Ranker state (data loaded in `__init__`) -/

/-- Per-document display metadata (`doc_metadata` values). -/
structure DocMeta where
  title : String
  keywords : String
  abstract : String
  authors : String

/-- The empty metadata record (`metadata.get(field, '')` fallbacks). -/
def emptyMeta : DocMeta := ⟨"", "", "", ""⟩

/-- The data a ranker instance loads at construction: blocks, the
front-coded dictionary, the inverted index (term → doc → tf), document
lengths, title/keyword field indexes, display metadata, corpus size `N`
and average document length `avgdl`.  All immutable at query time. -/
structure RankerState where
  blocks : List (String × List String)
  frontcoded : List (String × String)
  index : List (String × List (String × ℕ))
  doc_len : List (String × ℕ)
  title_index : List (String × List String)
  keyword_index : List (String × List String)
  doc_metadata : List (String × DocMeta)
  numDocs : ℕ
  avgdl : ℝ

/-- The vocabulary built at load time by decoding every front-coded
block. -/
def vocab (st : RankerState) : List String :=
  (st.frontcoded.map (fun p => decode_frontcoded p.2)).flatten

/-- `find_term_in_dictionary`: vocabulary membership. -/
def find_term_in_dictionary (st : RankerState) (t : String) : Bool :=
  (vocab st).contains t

/-- `term_freq.get(t, 0)`: the document frequency of a term (number of
postings), 0 for unindexed terms. -/
def termFreq (st : RankerState) (t : String) : ℕ :=
  match lookupA st.index t with
  | some ps => ps.length
  | none => 0

/-! ## Query preprocessing and spelling correction -/

/-- Take the first `n` characters of a string (Python `s[:n]`). -/
def strTake (s : String) (n : ℕ) : String :=
  String.mk (s.data.take n)

/-- First maximum of a list under `termFreq` (Python
`max(lst, key=...)` returns the first element attaining the maximum). -/
def maxByFreq (st : RankerState) (h : String) (rest : List String) : String :=
  rest.foldl (fun b t => if termFreq st b < termFreq st t then t else b) h

/-- Stage 3 of `correct_spelling`: prefix completion.  For words of
length ≥ 3, look in the block of the word's 3-character key for terms
that start with the word and are at most 5 characters longer; return
the most frequent one with distance = length difference. -/
def stage3 (st : RankerState) (word : String) : Option (String × Bool × ℕ) :=
  if 3 ≤ word.length then
    match lookupA st.blocks (strTake word 3) with
    | some block_terms =>
      match block_terms.filter
          (fun t => List.isPrefixOf word.data t.data && t.length ≤ word.length + 5) with
      | [] => none
      | h :: rest =>
        some (maxByFreq st h rest, false, (maxByFreq st h rest).length - word.length)
    | none => none
  else none

/-- `min(3, len(word) // 2)`: the maximum edit distance allowed by the
fuzzy search. -/
def maxDist (word : String) : ℕ := min 3 (word.length / 2)

/-- The block-key variants built by the fuzzy search: for each position
`i < min(3, len(word))` and each letter `c`, the key
`word[:i] + c + word[i+1:3]`, kept when it has length ≥ 3 and is a key
of `blocks`. -/
def variantKeys (st : RankerState) (word : String) : List String :=
  ((List.range (min 3 word.length)).map (fun i =>
    alphabet.filterMap (fun c =>
      let v := word.data.take i ++ c :: (word.data.take 3).drop (i + 1)
      if 3 ≤ v.length ∧ (lookupA st.blocks (String.mk v)).isSome
      then some (String.mk v) else none))).flatten

/-- Append an element to an accumulating list unless already present
(models insertion into a Python `set`, keeping first-insertion order). -/
def insertIfAbsent (acc : List String) (x : String) : List String :=
  if acc.contains x then acc else acc ++ [x]

/-- The `search_prefixes` set of the fuzzy stage: for words of length
≥ 3, the word's own 3-character prefix plus every in-`blocks` variant
key; for shorter words the set is empty. -/
def searchKeys (st : RankerState) (word : String) : List String :=
  if 3 ≤ word.length then
    (strTake word 3 :: variantKeys st word).foldl insertIfAbsent []
  else []

/-- `|a - b|` on naturals. -/
def natAbsDiff (a b : ℕ) : ℕ := (a - b) + (b - a)

/-- The candidates contributed by one block key: skip keys that are not
blocks (`if prefix not in self.blocks: continue`); in a block, skip
terms whose length differs from the word by more than `maxDist`, and
keep terms whose edit distance is at most `maxDist`, paired with that
distance and the term's document frequency. -/
def blockCands (st : RankerState) (word : String) (k : String) : List (String × ℕ × ℕ) :=
  match lookupA st.blocks k with
  | none => []
  | some terms => terms.filterMap (fun t =>
      if maxDist word < natAbsDiff t.length word.length then none
      else if edit_distance word.data t.data ≤ maxDist word
      then some (t, edit_distance word.data t.data, termFreq st t) else none)

/-- The fuzzy-stage candidate list: the block candidates of every
search key. -/
def candidatesFuzzy (st : RankerState) (word : String) : List (String × ℕ × ℕ) :=
  ((searchKeys st word).map (blockCands st word)).flatten

/-- Candidate ordering of the fuzzy stage: distance ascending, then
document frequency descending (`key=lambda x: (x[1], -x[2])`). -/
def candLE (c c' : String × ℕ × ℕ) : Prop :=
  c.2.1 < c'.2.1 ∨ (c.2.1 = c'.2.1 ∧ c'.2.2 ≤ c.2.2)

instance : DecidableRel candLE := fun c c' => by
  unfold candLE; infer_instance

instance : IsTotal (String × ℕ × ℕ) candLE :=
  ⟨fun a b => by unfold candLE; omega⟩

instance : IsTrans (String × ℕ × ℕ) candLE :=
  ⟨fun a b c hab hbc => by unfold candLE at hab hbc ⊢; omega⟩

/-- Stage 4 of `correct_spelling`: bounded fuzzy search.  Sort the
candidates by (distance, -frequency) and accept the first; with no
candidates return the word itself with the sentinel distance 999. -/
def stage4 (st : RankerState) (word : String) : String × Bool × ℕ :=
  match List.insertionSort candLE (candidatesFuzzy st word) with
  | [] => (word, false, 999)
  | (t, d, _) :: _ => (t, false, d)

/-- `correct_spelling`: the four-stage corrector.  Stage 1: exact
vocabulary hit.  Stage 2: common-typo table, accepted only when the
mapped term is in the vocabulary.  Stage 3: prefix completion.
Stage 4: bounded fuzzy search (with sentinel fallback). -/
def correct_spelling (st : RankerState) (word : String) : String × Bool × ℕ :=
  if find_term_in_dictionary st word then (word, true, 0)
  else
    match lookupA common_typos word with
    | some corrected =>
      if find_term_in_dictionary st corrected then (corrected, false, 1)
      else (stage3 st word).getD (stage4 st word)
    | none => (stage3 st word).getD (stage4 st word)

/-! ## Tokenization and query preprocessing -/

/-- Whitespace tokenizer (Python `str.split()`); `acc` holds the
current token reversed. -/
def splitWsAux : List Char → List Char → List String
  | [], acc => if acc.isEmpty then [] else [String.mk acc.reverse]
  | c :: cs, acc =>
    if c.isWhitespace then
      if acc.isEmpty then splitWsAux cs []
      else String.mk acc.reverse :: splitWsAux cs []
    else splitWsAux cs (c :: acc)

/-- `query.lower().strip()` followed by whitespace splitting and the
`len(t) > 1` token filter of `preprocess_query`. -/
def tokensOf (query : String) : List String :=
  (splitWsAux (query.data.map Char.toLower) []).filter (fun t => 1 < t.length)

/-- `expand_query`: start from the (deduplicated) corrected terms and
add up to two synonyms per term. -/
def expand_query (terms : List String) : List String :=
  terms.foldl (fun acc t =>
    match lookupA synonyms t with
    | some syns => (syns.take 2).foldl insertIfAbsent acc
    | none => acc) (terms.foldl insertIfAbsent [])

/-- `preprocess_query`: tokenize, spell-correct each token, collect the
corrections and their confidence distances, and expand with synonyms
only when every correction has distance < 3.  Returns the final term
list and the (original, corrected) pairs. -/
def preprocess_query (st : RankerState) (query : String) :
    List String × List (String × String) :=
  let terms := tokensOf query
  if terms = [] then ([], [])
  else
    let trip := terms.map (fun t => (t, correct_spelling st t))
    let corrected := trip.map (fun p => p.2.1)
    let notCorrect := trip.filter (fun p => p.2.2.1 = false)
    let corrections := notCorrect.map (fun p => (p.1, p.2.1))
    let confidences := notCorrect.map (fun p => p.2.2.2)
    let expanded := if confidences.all (fun c => c < 3) then expand_query corrected
                    else corrected
    (expanded, corrections)

/-- `get_core_terms`: remove stopwords, falling back to the full term
list when everything was a stopword. -/
def get_core_terms (query_terms : List String) : List String :=
  let core := query_terms.filter (fun t => ¬ GENERIC_TERMS.contains t)
  if core = [] then query_terms else core

/-- Query specificity classification. -/
inductive Specificity where
  | specific
  | moderate
  | generic
deriving DecidableEq

/-- `analyze_query_specificity`. -/
noncomputable def analyze_query_specificity (query_terms : List String) : Specificity :=
  let core := get_core_terms query_terms
  let domainMatch := DOMAIN_PATTERNS.any (fun p => core.any (fun t => p.2.1.contains t))
  if 3 ≤ core.length ∨ (2 ≤ core.length ∧ domainMatch) then .specific
  else if 2 ≤ core.length then .moderate
  else .generic

/-- `detect_query_domain`: count matches per domain (in table order),
keep domains with a positive count, and return the first domain
attaining the maximum count (Python `max` returns the first maximum);
with no match return `("general", 1.0)`. -/
noncomputable def detect_query_domain (query_terms : List String) : String × ℝ :=
  let domMatches := DOMAIN_PATTERNS.filterMap (fun p =>
    let m := query_terms.countP (fun t => p.2.1.contains t)
    if 0 < m then some (p.1, m, p.2.2) else none)
  match domMatches with
  | [] => ("general", 1.0)
  | h :: rest =>
    let best := rest.foldl (fun b c => if b.2.1 < c.2.1 then c else b) h
    (best.1, best.2.2)

/-! ## Scoring -/

/-- Does this document appear in the postings of this term? -/
def inPostings (st : RankerState) (t doc : String) : Bool :=
  match lookupA st.index t with
  | some ps => (lookupA ps doc).isSome
  | none => false

/-- Does this document appear in the title index entry of this term? -/
def inTitleIndex (st : RankerState) (t doc : String) : Bool :=
  match lookupA st.title_index t with
  | some ds => ds.contains doc
  | none => false

/-- Does this document appear in the keyword index entry of this term? -/
def inKeywordIndex (st : RankerState) (t doc : String) : Bool :=
  match lookupA st.keyword_index t with
  | some ds => ds.contains doc
  | none => false

/-- The stored term frequency of `t` in `doc` (0 when absent). -/
def tfOf (st : RankerState) (t doc : String) : ℕ :=
  (((lookupA st.index t).bind (fun ps => lookupA ps doc))).getD 0

/-- The stored document length (`doc_len.get(doc_id, 0)`). -/
def dlOf (st : RankerState) (doc : String) : ℕ :=
  (lookupA st.doc_len doc).getD 0

/-- `compute_idf`: probabilistic IDF with the saturation penalty, 0 for
unindexed terms. -/
noncomputable def compute_idf (st : RankerState) (term : String) : ℝ :=
  match lookupA st.index term with
  | none => 0.0
  | some ps =>
    let df : ℕ := ps.length
    let idf := Real.log (((st.numDocs : ℝ) - (df : ℝ) + 0.5) / ((df : ℝ) + 0.5) + 1.0)
    if (st.numDocs : ℝ) * 0.5 < (df : ℝ) then idf * 0.4
    else if (st.numDocs : ℝ) * 0.3 < (df : ℝ) then idf * 0.6
    else idf

/-- `compute_bm25_score`: 0 for documents with stored length 0 (or no
stored length); otherwise accumulate the BM25 contribution of every
query term present in the index and in this document's postings. -/
noncomputable def compute_bm25_score (st : RankerState) (query_terms : List String)
    (doc : String) : ℝ :=
  let dl := dlOf st doc
  if dl = 0 then 0.0
  else query_terms.foldl (fun score term =>
    match lookupA st.index term with
    | none => score
    | some ps =>
      match lookupA ps doc with
      | none => score
      | some tf =>
        score + compute_idf st term *
          (((tf : ℝ) * (K1 + 1)) / ((tf : ℝ) + K1 * (1 - B + B * ((dl : ℝ) / st.avgdl))))) 0.0

/-- `compute_term_coverage`: fraction of core terms matching the
document in the main, title or keyword index; 0 when the core term
list is empty (explicit guard). -/
noncomputable def compute_term_coverage (st : RankerState) (query_terms : List String)
    (doc : String) : ℝ :=
  let core := get_core_terms query_terms
  if core = [] then 0.0
  else
    (core.countP (fun t => inPostings st t doc || inTitleIndex st t doc ||
      inKeywordIndex st t doc) : ℝ) / (core.length : ℝ)

/-- Substring test (Python `needle in haystack`). -/
def containsSub (hay needle : List Char) : Bool :=
  hay.tails.any (fun t => needle.isPrefixOf t)

/-- `check_semantic_relevance`: at least 70% of the core terms (or one
of their synonyms) must occur verbatim in the document's displayed
title+keywords+abstract text; vacuously true for an empty core list. -/
noncomputable def check_semantic_relevance (st : RankerState) (query_terms : List String)
    (doc : String) : Bool :=
  let core := get_core_terms query_terms
  if core = [] then true
  else
    let m := (lookupA st.doc_metadata doc).getD emptyMeta
    let docText := ((m.title ++ " " ++ m.keywords ++ " " ++ m.abstract).data.map Char.toLower)
    let nMatches := core.countP (fun t =>
      containsSub docText t.data ||
      (match lookupA synonyms t with
       | some syns => syns.any (fun s => containsSub docText s.data)
       | none => false))
    decide ((0.7 : ℝ) ≤ (nMatches : ℝ) / (core.length : ℝ))

/-- `apply_boosting`: per-document multiplier from graduated title
coverage, keyword coverage, the perfect-title-match bonus, the overall
coverage bonus and the domain boost. -/
noncomputable def apply_boosting (st : RankerState) (query_terms : List String)
    (doc_scores : List (String × ℝ)) (domain_boost : ℝ) : List (String × ℝ) :=
  let core := get_core_terms query_terms
  doc_scores.map (fun ds =>
    let doc := ds.1
    let titleMatches := core.countP (fun t => inTitleIndex st t doc)
    let mult1 : ℝ :=
      if 0 < titleMatches then
        let titleCov := (titleMatches : ℝ) / (core.length : ℝ)
        if (0.8 : ℝ) ≤ titleCov then 1.0 + TITLE_BOOST * 1.5
        else if (0.6 : ℝ) ≤ titleCov then 1.0 + TITLE_BOOST * 1.2
        else 1.0 + TITLE_BOOST * titleCov
      else 1.0
    let kwMatches := core.countP (fun t => inKeywordIndex st t doc)
    let mult2 : ℝ :=
      if 0 < kwMatches then mult1 + KEYWORD_BOOST * ((kwMatches : ℝ) / (core.length : ℝ))
      else mult1
    let mult3 : ℝ :=
      if titleMatches = core.length ∧ 2 ≤ core.length then mult2 * 2.0 else mult2
    let coverage := compute_term_coverage st query_terms doc
    let mult4 : ℝ :=
      if IDEAL_TERM_COVERAGE ≤ coverage then mult3 * 1.4
      else if (0.6 : ℝ) ≤ coverage then mult3 * 1.2
      else mult3
    (doc, ds.2 * (mult4 * domain_boost)))

/-! ## Divide-by-zero instrumentation (checked variants)

Each `…Checked` definition mirrors its unchecked counterpart exactly,
except that every division is preceded by a test of its denominator:
reaching a division whose denominator is zero (a Python
`ZeroDivisionError`) yields `none`. -/

/-- `compute_bm25_score` with every division checked.  The divisions
are `dl / avgdl` and `numerator / denominator`. -/
noncomputable def bm25CheckedAux (st : RankerState) (doc : String) (dl : ℕ) :
    List String → ℝ → Option ℝ
  | [], score => some score
  | term :: rest, score =>
    match lookupA st.index term with
    | none => bm25CheckedAux st doc dl rest score
    | some ps =>
      match lookupA ps doc with
      | none => bm25CheckedAux st doc dl rest score
      | some tf =>
        if st.avgdl = 0 then none
        else
          let den := (tf : ℝ) + K1 * (1 - B + B * ((dl : ℝ) / st.avgdl))
          if den = 0 then none
          else bm25CheckedAux st doc dl rest
            (score + compute_idf st term * (((tf : ℝ) * (K1 + 1)) / den))

/-- Checked `compute_bm25_score`. -/
noncomputable def compute_bm25_score_checked (st : RankerState)
    (query_terms : List String) (doc : String) : Option ℝ :=
  let dl := dlOf st doc
  if dl = 0 then some 0.0
  else bm25CheckedAux st doc dl query_terms 0.0

/-- Checked `compute_term_coverage`: the division by the core-term
count happens only after the explicit emptiness guard. -/
noncomputable def compute_term_coverage_checked (st : RankerState)
    (query_terms : List String) (doc : String) : Option ℝ :=
  let core := get_core_terms query_terms
  if core = [] then some 0.0
  else if (core.length : ℝ) = 0 then none
  else some ((core.countP (fun t => inPostings st t doc || inTitleIndex st t doc ||
    inKeywordIndex st t doc) : ℝ) / (core.length : ℝ))

/-- Checked `apply_boosting` for a single document entry. -/
noncomputable def boostOneChecked (st : RankerState) (query_terms : List String)
    (core : List String) (domain_boost : ℝ) (ds : String × ℝ) : Option (String × ℝ) :=
  let doc := ds.1
  let titleMatches := core.countP (fun t => inTitleIndex st t doc)
  let m1 : Option ℝ :=
    if 0 < titleMatches then
      if (core.length : ℝ) = 0 then none
      else
        let titleCov := (titleMatches : ℝ) / (core.length : ℝ)
        if (0.8 : ℝ) ≤ titleCov then some (1.0 + TITLE_BOOST * 1.5)
        else if (0.6 : ℝ) ≤ titleCov then some (1.0 + TITLE_BOOST * 1.2)
        else some (1.0 + TITLE_BOOST * titleCov)
    else some 1.0
  match m1 with
  | none => none
  | some mult1 =>
    let kwMatches := core.countP (fun t => inKeywordIndex st t doc)
    let m2 : Option ℝ :=
      if 0 < kwMatches then
        if (core.length : ℝ) = 0 then none
        else some (mult1 + KEYWORD_BOOST * ((kwMatches : ℝ) / (core.length : ℝ)))
      else some mult1
    match m2 with
    | none => none
    | some mult2 =>
      let mult3 := if titleMatches = core.length ∧ 2 ≤ core.length
                   then mult2 * 2.0 else mult2
      match compute_term_coverage_checked st query_terms doc with
      | none => none
      | some coverage =>
        let mult4 :=
          if IDEAL_TERM_COVERAGE ≤ coverage then mult3 * 1.4
          else if (0.6 : ℝ) ≤ coverage then mult3 * 1.2
          else mult3
        some (doc, ds.2 * (mult4 * domain_boost))

/-- Checked `apply_boosting`. -/
noncomputable def apply_boosting_checked (st : RankerState) (query_terms : List String)
    (doc_scores : List (String × ℝ)) (domain_boost : ℝ) : Option (List (String × ℝ)) :=
  let core := get_core_terms query_terms
  doc_scores.foldr (fun ds acc =>
    match boostOneChecked st query_terms core domain_boost ds, acc with
    | some b, some l => some (b :: l)
    | _, _ => none) (some [])

/-! ## Candidate collection and result filtering -/

/-- Increment the per-document counter (Python
`candidate_docs[doc_id] += 1` on a `defaultdict(int)`). -/
def bump : List (String × ℕ) → String → List (String × ℕ)
  | [], doc => [(doc, 1)]
  | (k, v) :: rest, doc =>
    if k = doc then (k, v + 1) :: rest else (k, v) :: bump rest doc

/-- Candidate collection: for every query term in the index, add one to
the counter of every document in its postings. -/
def collectCounts (st : RankerState) (query_terms : List String) : List (String × ℕ) :=
  query_terms.foldl (fun acc t =>
    match lookupA st.index t with
    | some ps => ps.foldl (fun a p => bump a p.1) acc
    | none => acc) []

/-- The candidate set after the coverage filter with percentage `pct`:
keep documents matching at least `max(1, core_count * pct / 100)` query
terms. -/
def coverageFiltered (st : RankerState) (query_terms : List String) (pct : ℕ) :
    List (String × ℕ) :=
  let core := get_core_terms query_terms
  let minMatches := max 1 (core.length * pct / 100)
  (collectCounts st query_terms).filter (fun dc => minMatches ≤ dc.2)

/-- Result-score ordering: descending by score. -/
def scoreGE (a b : String × ℝ) : Prop := b.2 ≤ a.2

noncomputable instance : DecidableRel scoreGE := fun a b => by
  unfold scoreGE; infer_instance

instance : IsTotal (String × ℝ) scoreGE :=
  ⟨fun a b => le_total b.2 a.2⟩

instance : IsTrans (String × ℝ) scoreGE :=
  ⟨fun _ _ _ hab hbc => le_trans hbc hab⟩

/-- Descending sort of real values. -/
def realGE (a b : ℝ) : Prop := b ≤ a

noncomputable instance : DecidableRel realGE := fun a b => by
  unfold realGE; infer_instance

instance : IsTotal ℝ realGE := ⟨fun a b => le_total b a⟩

instance : IsTrans ℝ realGE := ⟨fun _ _ _ hab hbc => le_trans hbc hab⟩

/-- The result cap and percentile for a specificity class. -/
def limitsFor : Specificity → ℕ × ℕ
  | .specific => (MAX_RESULTS_SPECIFIC, 25)
  | .moderate => (MAX_RESULTS_MODERATE, 35)
  | .generic => (MAX_RESULTS_GENERIC, 45)

/-- `filter_results`: adaptive threshold (the score at a
percentile-determined index when more than 20 candidates exist,
otherwise the fixed minimum), floored at `MIN_SCORE_THRESHOLD`; then
cap the survivors at the specificity-determined maximum. -/
noncomputable def filter_results (scores : List (String × ℝ)) (spec : Specificity) :
    List (String × ℝ) :=
  if scores = [] then []
  else
    let score_values := List.insertionSort realGE (scores.map Prod.snd)
    let maxResults := (limitsFor spec).1
    let pct := (limitsFor spec).2
    let adaptive : ℝ :=
      if 20 < score_values.length then
        score_values.getD (max 8 (score_values.length * pct / 100)) 0
      else MIN_SCORE_THRESHOLD
    let threshold := max adaptive MIN_SCORE_THRESHOLD
    let filtered := scores.filter (fun ds => threshold ≤ ds.2)
    if maxResults < filtered.length then
      (List.insertionSort scoreGE filtered).take maxResults
    else filtered

/-! ## Search orchestration -/

/-- One returned search result. -/
structure SearchResult where
  doc_id : String
  score : ℝ
  title : String
  keywords : String
  abstract : String
  authors : String
  domain : String
  specificity : Specificity

/-- Attach display metadata to a scored document. -/
noncomputable def mkResult (st : RankerState) (domain : String) (spec : Specificity)
    (ds : String × ℝ) : SearchResult :=
  let m := (lookupA st.doc_metadata ds.1).getD emptyMeta
  { doc_id := ds.1
    score := ds.2
    title := m.title
    keywords := m.keywords
    abstract := strTake m.abstract 200 ++ "..."
    authors := m.authors
    domain := domain
    specificity := spec }

/-- The candidate set of `search`: the strict coverage filter, relaxed
to the 35% fraction when it keeps fewer than 5 documents. -/
def candsOf (st : RankerState) (query_terms : List String) : List (String × ℕ) :=
  let cand1 := coverageFiltered st query_terms MIN_TERM_COVERAGE_PCT
  if cand1.length < 5 then coverageFiltered st query_terms 35 else cand1

/-- The scored candidates of `search`: semantic prefilter (kept only
when ≥ 3 documents survive), then BM25 scores of the candidates with
positive score. -/
noncomputable def scoredOf (st : RankerState) (query_terms : List String) :
    List (String × ℝ) :=
  let cand2 := candsOf st query_terms
  let semrel := cand2.filter (fun dc => check_semantic_relevance st query_terms dc.1)
  let cand3 := if 3 ≤ semrel.length then semrel else cand2
  cand3.filterMap (fun dc =>
    let s := compute_bm25_score st query_terms dc.1
    if 0 < s then some (dc.1, s) else none)

/-- The final score table of `search`: boosting, adaptive filtering,
then the semantic postfilter with its relaxation (revert to the
filtered set when fewer than `min(3, len//2)` documents survive). -/
noncomputable def finalScoresOf (st : RankerState) (query_terms : List String)
    (spec : Specificity) (domain_boost : ℝ) : List (String × ℝ) :=
  let filtered := filter_results
    (apply_boosting st query_terms (scoredOf st query_terms) domain_boost) spec
  let finalSem := filtered.filter (fun ds => check_semantic_relevance st query_terms ds.1)
  if finalSem.length < min 3 (filtered.length / 2) then filtered else finalSem

/-- `search`: preprocess, analyse, collect candidates with the strict
coverage filter (relaxed to 35% when fewer than 5 candidates),
semantic prefilter (kept only when ≥ 3 documents survive), BM25
scoring of positive-score candidates, boosting, adaptive filtering,
semantic postfilter (with its relaxation), sort descending and
truncate to `top_k`. -/
noncomputable def search (st : RankerState) (query : String) (top_k : ℕ) :
    List SearchResult :=
  let pre := preprocess_query st query
  let query_terms := pre.1
  if query_terms = [] then []
  else
    let spec := analyze_query_specificity query_terms
    let dom := detect_query_domain query_terms
    if candsOf st query_terms = [] then []
    else
      ((List.insertionSort scoreGE (finalScoresOf st query_terms spec dom.2)).take
        top_k).map (mkResult st dom.1 spec)

/-! ## Specification-side definitions (written from the spec text) -/

/-- The BM25 IDF exactly as the spec states it:
`ln((N - df + 0.5)/(df + 0.5) + 1)`, multiplied by 0.4 when
`df > 0.5 * N`, else by 0.6 when `df > 0.3 * N`. -/
noncomputable def idfSpecFormula (N df : ℕ) : ℝ :=
  (if (N : ℝ) * 0.5 < (df : ℝ) then 0.4
   else if (N : ℝ) * 0.3 < (df : ℝ) then 0.6
   else 1) *
  Real.log (((N : ℝ) - (df : ℝ) + 0.5) / ((df : ℝ) + 0.5) + 1)

/-- The BM25 score exactly as the claim states it: the sum, over query
terms present both in the index and in the document's postings, of
`idf(term) * (tf * (K1+1)) / (tf + K1 * (1 - B + B * (dl/avgdl)))`. -/
noncomputable def bm25SpecSum (st : RankerState) (query_terms : List String)
    (doc : String) : ℝ :=
  ((query_terms.filter (fun t => inPostings st t doc)).map (fun t =>
    idfSpecFormula st.numDocs (termFreq st t) *
      ((tfOf st t doc : ℝ) * (K1 + 1)) /
      ((tfOf st t doc : ℝ) + K1 * (1 - B + B * ((dlOf st doc : ℝ) / st.avgdl))))).sum

/-- The BM25 contribution of a single query term to a document of
stored length `dl`: zero when the term is absent from the index or
from the document's postings. -/
noncomputable def fullContrib (st : RankerState) (doc : String) (dl : ℕ)
    (t : String) : ℝ :=
  match lookupA st.index t with
  | none => 0
  | some ps =>
    match lookupA ps doc with
    | none => 0
    | some tf =>
      compute_idf st t *
        (((tf : ℝ) * (K1 + 1)) / ((tf : ℝ) + K1 * (1 - B + B * ((dl : ℝ) / st.avgdl))))

/-- The fuzzy-search block-key set exactly as the claim states it: the
token's own 3-character prefix plus every key obtained by substituting
one of the first `min(3, len(token))` characters with a letter a–z. -/
def claimKeys (word : String) : List String :=
  strTake word 3 ::
    ((List.range (min 3 word.length)).map (fun i =>
      alphabet.map (fun c =>
        String.mk (word.data.take i ++ c :: (word.data.take 3).drop (i + 1))))).flatten

/-- The fuzzy-search candidate set exactly as the claim states it:
every term of every block keyed by `claimKeys`, skipping terms whose
length differs from the token by more than `maxDist`, kept when the
edit distance is at most `maxDist`. -/
def claimCandidates (st : RankerState) (word : String) : List (String × ℕ × ℕ) :=
  ((claimKeys word).map (blockCands st word)).flatten

/-! ## Concrete states used to witness the theorems -/

/-- A state whose `blocks` contain the 2-character block key `ax`: the
claim's fuzzy search would reach it from the 2-character token `qx`,
the code does not. -/
def stShort : RankerState :=
  { blocks := [("ax", ["ax"])], frontcoded := [], index := [], doc_len := [],
    title_index := [], keyword_index := [], doc_metadata := [], numDocs := 0, avgdl := 0 }

/-- A small state for fuzzy-correction witnesses: one block `pen`
containing `penyakit`, which is indexed in one document. -/
def stFuzzy : RankerState :=
  { blocks := [("pen", ["penyakit"])], frontcoded := [],
    index := [("penyakit", [("d1", 3)])], doc_len := [("d1", 10)],
    title_index := [], keyword_index := [], doc_metadata := [], numDocs := 5, avgdl := 10 }

/-- A small state for scoring witnesses: one indexed term `ab` in
document `d1` (length 4) and a zero-length document `dz`. -/
def stBM : RankerState :=
  { blocks := [], frontcoded := [], index := [("ab", [("d1", 2)])],
    doc_len := [("d1", 4), ("dz", 0)], title_index := [], keyword_index := [],
    doc_metadata := [], numDocs := 10, avgdl := 4 }

/-- A state with `avgdl = 0`: scoring a document of positive length
with a matching term reaches the unguarded division `dl / avgdl`. -/
def stZeroAvg : RankerState :=
  { blocks := [], frontcoded := [], index := [("ab", [("d1", 2)])],
    doc_len := [("d1", 4)], title_index := [], keyword_index := [],
    doc_metadata := [], numDocs := 10, avgdl := 0 }

/-! ## Lemmas: front coding -/

theorem splitOnceChar_append {p : List Char} (r : List Char)
    (h : '*' ∉ p) : splitOnceChar '*' (p ++ '*' :: r) = (p, r) := by
  induction p with
  | nil => simp [splitOnceChar]
  | cons c cs ih =>
    have hc : c ≠ '*' := fun hc => h (hc ▸ List.mem_cons_self c cs)
    have hcs : '*' ∉ cs := fun hm => h (List.mem_cons_of_mem c hm)
    simp [splitOnceChar, hc, ih hcs]

theorem splitSepChar_ne_nil (sep : Char) (l : List Char) :
    splitSepChar sep l ≠ [] := by
  cases l with
  | nil => simp [splitSepChar]
  | cons c cs =>
    by_cases h : c = sep
    · simp [splitSepChar, h]
    · simp only [splitSepChar, if_neg h]
      cases splitSepChar sep cs <;> simp

theorem splitSepChar_no_sep {sep : Char} {l : List Char} (h : sep ∉ l) :
    splitSepChar sep l = [l] := by
  induction l with
  | nil => rfl
  | cons c cs ih =>
    have hc : c ≠ sep := fun hc => h (hc ▸ List.mem_cons_self c cs)
    have hcs : sep ∉ cs := fun hm => h (List.mem_cons_of_mem c hm)
    simp [splitSepChar, hc, ih hcs]

theorem splitSepChar_append {sep : Char} {s : List Char} (r : List Char)
    (h : sep ∉ s) : splitSepChar sep (s ++ sep :: r) = s :: splitSepChar sep r := by
  induction s with
  | nil => simp [splitSepChar]
  | cons c cs ih =>
    have hc : c ≠ sep := fun hc => h (hc ▸ List.mem_cons_self c cs)
    have hcs : sep ∉ cs := fun hm => h (List.mem_cons_of_mem c hm)
    simp only [List.cons_append, splitSepChar, if_neg hc, List.append_eq, ih hcs]

theorem intercalateChar_cons_cons_ne_nil (sep : Char) (s t : List Char)
    (ts : List (List Char)) : intercalateChar sep (s :: t :: ts) ≠ [] := by
  cases s <;> simp [intercalateChar]

theorem splitSepChar_intercalateChar {sep : Char} :
    ∀ {sufs : List (List Char)}, sufs ≠ [] → (∀ s ∈ sufs, sep ∉ s) →
      splitSepChar sep (intercalateChar sep sufs) = sufs
  | [], h, _ => absurd rfl h
  | [s], _, hs => by
    simpa [intercalateChar] using splitSepChar_no_sep (hs s (by simp))
  | s :: t :: ts, _, hs => by
    have h1 : sep ∉ s := hs s (by simp)
    have h2 : ∀ u ∈ t :: ts, sep ∉ u := fun u hu => hs u (List.mem_cons_of_mem s hu)
    simp only [intercalateChar, splitSepChar_append _ h1]
    rw [splitSepChar_intercalateChar (by simp) h2]

/-- Decoding a front-coded block reproduces the encoded terms exactly:
given a nonempty list of suffixes (the terms are `pre ++ suffix`),
provided the shared prefix contains no `*` and no suffix contains `|`,
decode ∘ encode is the identity on the term list. -/
theorem decodeFC_encodeFC {pre : List Char} {sufs : List (List Char)}
    (hne : sufs ≠ []) (hp : '*' ∉ pre) (hs : ∀ s ∈ sufs, '|' ∉ s) :
    decodeFC (encodeFC pre sufs) = sufs.map (fun s => pre ++ s) := by
  have hmem : '*' ∈ encodeFC pre sufs := by
    simp [encodeFC]
  have hsplit : splitOnceChar '*' (encodeFC pre sufs) =
      (pre, intercalateChar '|' sufs) := splitOnceChar_append _ hp
  by_cases hic : intercalateChar '|' sufs = []
  · have hsing : sufs = [[]] := by
      match sufs, hne with
      | [s], _ =>
        simp only [intercalateChar] at hic
        simp [hic]
      | s :: t :: ts, _ =>
        exact absurd hic (intercalateChar_cons_cons_ne_nil _ _ _ _)
    subst hsing
    simp [decodeFC, hmem, hsplit, hic]
  · rw [decodeFC, if_pos hmem, hsplit]
    simp only [if_neg hic]
    rw [splitSepChar_intercalateChar hne hs]

/-! ## Lemmas: edit distance -/

theorem lev_nil_left (ys : List Char) : lev [] ys = ys.length := by
  simp [lev]

theorem lev_nil_right (xs : List Char) : lev xs [] = xs.length := by
  cases xs <;> simp [lev]

theorem lev_cons_cons (x y : Char) (xs ys : List Char) :
    lev (x :: xs) (y :: ys) =
      min (lev xs ys + chCost x y)
        (min (lev (x :: xs) ys + 1) (lev xs (y :: ys) + 1)) := by
  simp [lev]

theorem chCost_comm (a b : Char) : chCost a b = chCost b a := by
  simp [chCost, eq_comm]

theorem lev_self : ∀ a : List Char, lev a a = 0
  | [] => by rw [lev_nil_left]; rfl
  | x :: xs => by
    rw [lev_cons_cons, lev_self xs]
    simp [chCost]

theorem lev_symm_aux : ∀ (n : ℕ) (a b : List Char), a.length + b.length ≤ n →
    lev a b = lev b a := by
  intro n
  induction n with
  | zero =>
    intro a b h
    have ha : a = [] := List.length_eq_zero.mp (by omega)
    have hb : b = [] := List.length_eq_zero.mp (by omega)
    subst ha; subst hb; rfl
  | succ n ih =>
    intro a b h
    match a, b with
    | [], b => rw [lev_nil_left, lev_nil_right]
    | a :: as, [] => rw [lev_nil_left, lev_nil_right]
    | x :: xs, y :: ys =>
      simp only [List.length_cons] at h
      rw [lev_cons_cons, lev_cons_cons,
        ih xs ys (by omega), ih (x :: xs) ys (by simp; omega),
        ih xs (y :: ys) (by simp; omega), chCost_comm]
      omega

theorem lev_symm (a b : List Char) : lev a b = lev b a :=
  lev_symm_aux (a.length + b.length) a b le_rfl

set_option maxHeartbeats 1600000 in
theorem lev_append_aux : ∀ (n : ℕ) (α β : List Char), α.length + β.length ≤ n →
    ∀ (a b : Char),
    lev (α ++ [a]) (β ++ [b]) =
      min (lev α β + chCost a b)
        (min (lev (α ++ [a]) β + 1) (lev α (β ++ [b]) + 1)) := by
  intro n
  induction n with
  | zero =>
    intro α β h a b
    have hα : α = [] := List.length_eq_zero.mp (by omega)
    have hβ : β = [] := List.length_eq_zero.mp (by omega)
    subst hα; subst hβ
    simp only [List.nil_append]
    rw [lev_cons_cons]
  | succ n ih =>
    intro α β h a b
    match α, β with
    | [], [] =>
      simp only [List.nil_append]
      rw [lev_cons_cons]
    | [], y :: β' =>
      have IH := ih [] β' (by simp at h ⊢; omega) a b
      simp only [List.nil_append, List.cons_append, lev_cons_cons, lev_nil_left,
        List.length_append, List.length_cons, List.length_nil] at IH ⊢
      rw [IH]
      omega
    | x :: α', [] =>
      have IH := ih α' [] (by simp at h ⊢; omega) a b
      simp only [List.nil_append, List.cons_append, lev_cons_cons, lev_nil_right,
        List.length_append, List.length_cons, List.length_nil] at IH ⊢
      rw [IH]
      omega
    | x :: α', y :: β' =>
      simp only [List.length_cons] at h
      have IH1 := ih α' β' (by omega) a b
      have IH2 := ih (x :: α') β' (by simp; omega) a b
      have IH3 := ih α' (y :: β') (by simp; omega) a b
      simp only [List.nil_append, List.cons_append, lev_cons_cons] at IH1 IH2 IH3 ⊢
      rw [IH1, IH2, IH3]
      simp only [← Nat.add_min_add_right]
      simp only [Nat.add_assoc, Nat.add_comm, Nat.add_left_comm, Nat.min_assoc,
        Nat.min_comm, Nat.min_left_comm]

theorem lev_append (α β : List Char) (a b : Char) :
    lev (α ++ [a]) (β ++ [b]) =
      min (lev α β + chCost a b)
        (min (lev (α ++ [a]) β + 1) (lev α (β ++ [b]) + 1)) :=
  lev_append_aux (α.length + β.length) α β le_rfl a b

theorem lev_rev_aux : ∀ (n : ℕ) (a b : List Char), a.length + b.length ≤ n →
    lev a.reverse b.reverse = lev a b := by
  intro n
  induction n with
  | zero =>
    intro a b h
    have ha : a = [] := List.length_eq_zero.mp (by omega)
    have hb : b = [] := List.length_eq_zero.mp (by omega)
    subst ha; subst hb; rfl
  | succ n ih =>
    intro a b h
    match a, b with
    | [], b => simp [lev_nil_left, lev_nil_right]
    | a :: as, [] => simp [lev_nil_left, lev_nil_right]
    | x :: xs, y :: ys =>
      simp only [List.length_cons] at h
      rw [List.reverse_cons, List.reverse_cons, lev_append, ← List.reverse_cons x xs,
        ← List.reverse_cons y ys, ih xs ys (by omega), ih (x :: xs) ys (by simp; omega),
        ih xs (y :: ys) (by simp; omega), lev_cons_cons, chCost_comm]

theorem lev_rev (a b : List Char) : lev a.reverse b.reverse = lev a b :=
  lev_rev_aux (a.length + b.length) a b le_rfl

theorem revPrefs_head (γ : List Char) (β : List Char) :
    revPrefs γ β = γ :: (revPrefs γ β).tail := by
  cases β <;> rfl

theorem rowAux_inv (c1 : Char) :
    ∀ (β γ α : List Char),
      rowAux c1 β ((revPrefs γ β).map (lev α)) (lev (c1 :: α) γ) =
        ((revPrefs γ β).map (lev (c1 :: α))).tail := by
  intro β
  induction β with
  | nil => intro γ α; rfl
  | cons b bs ih =>
    intro γ α
    obtain ⟨t, ht⟩ : ∃ t, revPrefs (b :: γ) bs = (b :: γ) :: t :=
      ⟨_, revPrefs_head _ _⟩
    have hstep : min (lev α (b :: γ) + 1)
        (min (lev (c1 :: α) γ + 1) (lev α γ + chCost c1 b)) =
        lev (c1 :: α) (b :: γ) := by
      rw [lev_cons_cons]; omega
    calc rowAux c1 (b :: bs) ((revPrefs γ (b :: bs)).map (lev α)) (lev (c1 :: α) γ)
        = rowAux c1 (b :: bs)
            (lev α γ :: lev α (b :: γ) :: t.map (lev α)) (lev (c1 :: α) γ) := by
          rw [show revPrefs γ (b :: bs) = γ :: revPrefs (b :: γ) bs from rfl, ht]
          rfl
      _ = lev (c1 :: α) (b :: γ) ::
            rowAux c1 bs (lev α (b :: γ) :: t.map (lev α)) (lev (c1 :: α) (b :: γ)) := by
          simp only [rowAux, hstep]
      _ = lev (c1 :: α) (b :: γ) ::
            rowAux c1 bs ((revPrefs (b :: γ) bs).map (lev α)) (lev (c1 :: α) (b :: γ)) := by
          rw [ht]; rfl
      _ = lev (c1 :: α) (b :: γ) :: ((revPrefs (b :: γ) bs).map (lev (c1 :: α))).tail := by
          rw [ih]
      _ = ((revPrefs γ (b :: bs)).map (lev (c1 :: α))).tail := by
          rw [show revPrefs γ (b :: bs) = γ :: revPrefs (b :: γ) bs from rfl, ht]
          rfl

theorem dpLoop_inv (s2 : List Char) :
    ∀ (rest α : List Char),
      dpLoop s2 rest α.length ((revPrefs [] s2).map (lev α)) =
        (revPrefs [] s2).map (lev (rest.reverse ++ α)) := by
  intro rest
  induction rest with
  | nil => intro α; rfl
  | cons c1 cs ih =>
    intro α
    have hhead : (revPrefs [] s2).map (lev (c1 :: α)) =
        lev (c1 :: α) [] :: ((revPrefs [] s2).map (lev (c1 :: α))).tail := by
      rw [revPrefs_head [] s2]; rfl
    have hrow : (α.length + 1) :: rowAux c1 s2 ((revPrefs [] s2).map (lev α)) (α.length + 1) =
        (revPrefs [] s2).map (lev (c1 :: α)) := by
      have hlen : α.length + 1 = lev (c1 :: α) [] := by
        rw [lev_nil_right, List.length_cons]
      rw [hlen, rowAux_inv c1 s2 [] α, ← hhead]
    calc dpLoop s2 (c1 :: cs) α.length ((revPrefs [] s2).map (lev α))
        = dpLoop s2 cs (α.length + 1)
            ((α.length + 1) :: rowAux c1 s2 ((revPrefs [] s2).map (lev α)) (α.length + 1)) := rfl
      _ = dpLoop s2 cs (c1 :: α).length ((revPrefs [] s2).map (lev (c1 :: α))) := by
          rw [hrow]; rfl
      _ = (revPrefs [] s2).map (lev (cs.reverse ++ (c1 :: α))) := ih (c1 :: α)
      _ = (revPrefs [] s2).map (lev ((c1 :: cs).reverse ++ α)) := by
          simp [List.append_assoc]

theorem revPrefs_map_length (β : List Char) :
    ∀ γ : List Char, (revPrefs γ β).map List.length = List.range' γ.length (β.length + 1) := by
  induction β with
  | nil => intro γ; simp [revPrefs]
  | cons b bs ih =>
    intro γ
    rw [show revPrefs γ (b :: bs) = γ :: revPrefs (b :: γ) bs from rfl]
    simp only [List.map_cons, ih (b :: γ), List.length_cons]
    simp [List.range'_succ]

theorem revPrefs_getLast? (β : List Char) :
    ∀ γ : List Char, (revPrefs γ β).getLast? = some (β.reverse ++ γ) := by
  induction β with
  | nil => intro γ; simp [revPrefs]
  | cons b bs ih =>
    intro γ
    rw [show revPrefs γ (b :: bs) = γ :: revPrefs (b :: γ) bs from rfl]
    rw [revPrefs_head (b :: γ) bs, List.getLast?_cons_cons, ← revPrefs_head (b :: γ) bs,
      ih (b :: γ)]
    simp

theorem editRaw_eq (s1 s2 : List Char) : editRaw s1 s2 = lev s1.reverse s2.reverse := by
  rw [editRaw]
  by_cases h2 : s2.length = 0
  · have : s2 = [] := List.length_eq_zero.mp h2
    subst this
    simp [lev_nil_right]
  · rw [if_neg h2]
    have hinit : (revPrefs [] s2).map (lev []) = List.range (s2.length + 1) := by
      have h1 : (revPrefs [] s2).map (lev []) = (revPrefs [] s2).map List.length := by
        simp [lev_nil_left]
      rw [h1, revPrefs_map_length s2 [], List.range_eq_range']
      rfl
    have h0 : (0 : ℕ) = ([] : List Char).length := rfl
    rw [← hinit, h0, dpLoop_inv s2 s1 []]
    rw [List.getLast?_map, revPrefs_getLast? s2 []]
    simp

theorem edit_distance_eq_lev (a b : List Char) : edit_distance a b = lev a b := by
  rw [edit_distance]
  by_cases h : a.length < b.length
  · rw [if_pos h, editRaw_eq, lev_rev, lev_symm]
  · rw [if_neg h, editRaw_eq, lev_rev]

/-! ## Claim theorems: C6 and C8 -/

/-- C6: `decode_frontcoded` implements the specified decoding — a
string without `*` decodes to itself as the only term — and decoding
the front-coded encoding of any nonempty family of terms `pre ++ s`
(for suffixes `s` free of the `|` delimiter, with a prefix free of `*`)
reproduces exactly the original terms. -/
theorem C6_frontcoding_roundtrip :
    (∀ s : String, '*' ∉ s.data → decode_frontcoded s = [s]) ∧
    (∀ (pre : List Char) (sufs : List (List Char)), sufs ≠ [] → '*' ∉ pre →
      (∀ s ∈ sufs, '|' ∉ s) →
      decodeFC (encodeFC pre sufs) = sufs.map (fun s => pre ++ s)) := by
  constructor
  · intro s hs
    rw [decode_frontcoded, decodeFC, if_neg hs]
    rfl
  · intro pre sufs hne hp hs
    exact decodeFC_encodeFC hne hp hs

/-- Witness for C6 at a concrete block: encoding the terms
`ab`, `abc` (prefix `ab`, suffixes ``, `c`) and decoding returns
exactly those terms. -/
theorem C6_frontcoding_roundtrip_witness :
    decodeFC (encodeFC ['a', 'b'] [[], ['c']]) =
      ([[], ['c']] : List (List Char)).map (fun s => ['a', 'b'] ++ s) :=
  C6_frontcoding_roundtrip.2 ['a', 'b'] [[], ['c']]
    (by decide) (by decide) (by decide)

/-- C8: `edit_distance` equals the reference recursive Levenshtein
distance, is symmetric, is zero on equal strings, and on an empty
first string returns the length of the second. -/
theorem C8_edit_distance_correct (a b s : List Char) :
    edit_distance a b = lev a b ∧
    edit_distance a b = edit_distance b a ∧
    edit_distance a a = 0 ∧
    edit_distance [] s = s.length := by
  refine ⟨edit_distance_eq_lev a b, ?_, ?_, ?_⟩
  · rw [edit_distance_eq_lev, edit_distance_eq_lev, lev_symm]
  · rw [edit_distance_eq_lev, lev_self]
  · rw [edit_distance_eq_lev, lev_nil_left]

/-! ## Lemmas: the fuzzy correction stage -/

theorem mem_insertIfAbsent {acc : List String} {y x : String} :
    x ∈ insertIfAbsent acc y ↔ x ∈ acc ∨ x = y := by
  unfold insertIfAbsent
  by_cases h : acc.contains y
  · rw [if_pos h]
    have hy : y ∈ acc := by simpa using h
    constructor
    · exact fun hx => Or.inl hx
    · rintro (hx | rfl)
      · exact hx
      · exact hy
  · rw [if_neg h]
    simp

theorem mem_foldl_insertIfAbsent :
    ∀ (l acc : List String) (x : String),
      x ∈ l.foldl insertIfAbsent acc ↔ x ∈ acc ∨ x ∈ l
  | [], acc, x => by simp
  | y :: l, acc, x => by
    simp only [List.foldl_cons]
    rw [mem_foldl_insertIfAbsent l (insertIfAbsent acc y) x, mem_insertIfAbsent,
      List.mem_cons]
    tauto

theorem mem_searchKeys {st : RankerState} {word k : String}
    (hlen : 3 ≤ word.length) :
    k ∈ searchKeys st word ↔ k = strTake word 3 ∨ k ∈ variantKeys st word := by
  unfold searchKeys
  rw [if_pos hlen, mem_foldl_insertIfAbsent]
  simp [eq_comm]

theorem searchKeys_short {st : RankerState} {word : String}
    (hlen : word.length < 3) : searchKeys st word = [] := by
  unfold searchKeys
  rw [if_neg (by omega)]

theorem mem_variantKeys {st : RankerState} {word k : String} :
    k ∈ variantKeys st word ↔
      ∃ i < min 3 word.length, ∃ c ∈ alphabet,
        k = String.mk (word.data.take i ++ c :: (word.data.take 3).drop (i + 1)) ∧
        3 ≤ (word.data.take i ++ c :: (word.data.take 3).drop (i + 1)).length ∧
        (lookupA st.blocks
          (String.mk (word.data.take i ++ c :: (word.data.take 3).drop (i + 1)))).isSome := by
  constructor
  · intro hk
    obtain ⟨l, hl, hkl⟩ := List.mem_flatten.mp hk
    obtain ⟨i, hi, rfl⟩ := List.mem_map.mp hl
    obtain ⟨c, hc, hsome⟩ := List.mem_filterMap.mp hkl
    simp only at hsome
    split_ifs at hsome with hcond
    obtain ⟨h3, hblk⟩ := hcond
    exact ⟨i, List.mem_range.mp hi, c, hc, (Option.some.inj hsome).symm, h3, hblk⟩
  · rintro ⟨i, hi, c, hc, rfl, h3, hsome⟩
    refine List.mem_flatten.mpr ⟨_, List.mem_map.mpr ⟨i, List.mem_range.mpr hi, rfl⟩, ?_⟩
    refine List.mem_filterMap.mpr ⟨c, hc, ?_⟩
    simp only
    rw [if_pos ⟨h3, hsome⟩]

theorem mem_claimKeys {word k : String} :
    k ∈ claimKeys word ↔
      k = strTake word 3 ∨
      ∃ i < min 3 word.length, ∃ c ∈ alphabet,
        k = String.mk (word.data.take i ++ c :: (word.data.take 3).drop (i + 1)) := by
  unfold claimKeys
  rw [List.mem_cons]
  constructor
  · rintro (rfl | hk)
    · exact Or.inl rfl
    · obtain ⟨l, hl, hkl⟩ := List.mem_flatten.mp hk
      obtain ⟨i, hi, rfl⟩ := List.mem_map.mp hl
      obtain ⟨c, hc, hck⟩ := List.mem_map.mp hkl
      exact Or.inr ⟨i, List.mem_range.mp hi, c, hc, hck.symm⟩
  · rintro (rfl | ⟨i, hi, c, hc, hk⟩)
    · exact Or.inl rfl
    · refine Or.inr (List.mem_flatten.mpr
        ⟨_, List.mem_map.mpr ⟨i, List.mem_range.mpr hi, rfl⟩,
          List.mem_map.mpr ⟨c, hc, hk.symm⟩⟩)

theorem variant_length {word : String} {i : ℕ} (c : Char)
    (hlen : 3 ≤ word.length) (hi : i < min 3 word.length) :
    (word.data.take i ++ c :: (word.data.take 3).drop (i + 1)).length = 3 := by
  have hw : word.length = word.data.length := rfl
  have h1 : (word.data.take i).length = i := by
    rw [List.length_take]; omega
  have h2 : (word.data.take 3).length = 3 := by
    rw [List.length_take]; omega
  rw [List.length_append, h1, List.length_cons, List.length_drop, h2]
  omega

theorem mem_blockCands_isSome {st : RankerState} {word k : String}
    {x : String × ℕ × ℕ} (hx : x ∈ blockCands st word k) :
    (lookupA st.blocks k).isSome := by
  unfold blockCands at hx
  cases h : lookupA st.blocks k with
  | none => rw [h] at hx; simp at hx
  | some terms => rfl

theorem mem_blockCands_spec {st : RankerState} {word k t : String} {d f : ℕ}
    (hx : (t, d, f) ∈ blockCands st word k) :
    d = edit_distance word.data t.data ∧ d ≤ maxDist word ∧
      natAbsDiff t.length word.length ≤ maxDist word ∧ f = termFreq st t := by
  unfold blockCands at hx
  cases h : lookupA st.blocks k with
  | none => rw [h] at hx; simp at hx
  | some terms =>
    rw [h] at hx
    rw [List.mem_filterMap] at hx
    obtain ⟨t', _, hsome⟩ := hx
    by_cases h1 : maxDist word < natAbsDiff t'.length word.length
    · rw [if_pos h1] at hsome; cases hsome
    · rw [if_neg h1] at hsome
      by_cases h2 : edit_distance word.data t'.data ≤ maxDist word
      · rw [if_pos h2] at hsome
        have hinj := Option.some.inj hsome
        have ht : t' = t := congrArg Prod.fst hinj
        have hd2 : edit_distance word.data t'.data = d := congrArg (fun p => p.2.1) hinj
        have hf2 : termFreq st t' = f := congrArg (fun p => p.2.2) hinj
        subst ht
        refine ⟨hd2.symm, hd2 ▸ h2, by omega, hf2.symm⟩
      · rw [if_neg h2] at hsome; cases hsome

theorem mem_candidatesFuzzy_iff_claim {st : RankerState} {word : String}
    (hlen : 3 ≤ word.length) (x : String × ℕ × ℕ) :
    x ∈ candidatesFuzzy st word ↔ x ∈ claimCandidates st word := by
  unfold candidatesFuzzy claimCandidates
  simp only [List.mem_flatten, List.mem_map]
  constructor
  · rintro ⟨l, ⟨k, hk, rfl⟩, hx⟩
    refine ⟨blockCands st word k, ⟨k, ?_, rfl⟩, hx⟩
    rcases (mem_searchKeys hlen).mp hk with h | h
    · exact mem_claimKeys.mpr (Or.inl h)
    · obtain ⟨i, hi, c, hc, hk', _, _⟩ := mem_variantKeys.mp h
      exact mem_claimKeys.mpr (Or.inr ⟨i, hi, c, hc, hk'⟩)
  · rintro ⟨l, ⟨k, hk, rfl⟩, hx⟩
    refine ⟨blockCands st word k, ⟨k, ?_, rfl⟩, hx⟩
    have hsome := mem_blockCands_isSome hx
    rcases mem_claimKeys.mp hk with h | ⟨i, hi, c, hc, hk'⟩
    · exact (mem_searchKeys hlen).mpr (Or.inl h)
    · refine (mem_searchKeys hlen).mpr (Or.inr ?_)
      refine mem_variantKeys.mpr ⟨i, hi, c, hc, hk', ?_, ?_⟩
      · exact le_of_eq (variant_length c hlen hi).symm
      · exact hk' ▸ hsome

theorem candidatesFuzzy_short {st : RankerState} {word : String}
    (hlen : word.length < 3) : candidatesFuzzy st word = [] := by
  unfold candidatesFuzzy
  rw [searchKeys_short hlen]
  rfl

theorem correct_spelling_stages_fail {st : RankerState} {word : String}
    (h1 : find_term_in_dictionary st word = false)
    (h2 : ∀ c, lookupA common_typos word = some c →
      find_term_in_dictionary st c = false)
    (h3 : stage3 st word = none) :
    correct_spelling st word = stage4 st word := by
  unfold correct_spelling
  rw [h1]
  cases hl : lookupA common_typos word with
  | none => simp [h3]
  | some c => simp [h2 c hl, h3]

theorem candLE_refl (x : String × ℕ × ℕ) : candLE x x := by
  unfold candLE; omega

/-- The first element of the sorted candidate list is a candidate and
is minimal for (distance, -frequency). -/
theorem stage4_spec {st : RankerState} {word : String} :
    (candidatesFuzzy st word = [] → stage4 st word = (word, false, 999)) ∧
    (candidatesFuzzy st word ≠ [] →
      ∃ t d f, (t, d, f) ∈ candidatesFuzzy st word ∧
        stage4 st word = (t, false, d) ∧
        ∀ t' d' f', (t', d', f') ∈ candidatesFuzzy st word →
          d < d' ∨ (d = d' ∧ f' ≤ f)) := by
  constructor
  · intro h
    unfold stage4
    rw [h]
    rfl
  · intro h
    have hperm := List.perm_insertionSort candLE (candidatesFuzzy st word)
    have hsort := List.sorted_insertionSort candLE (candidatesFuzzy st word)
    unfold stage4
    cases hs : List.insertionSort candLE (candidatesFuzzy st word) with
    | nil =>
      rw [hs] at hperm
      exact absurd hperm.nil_eq.symm h
    | cons hd tl =>
      obtain ⟨t, d, f⟩ := hd
      refine ⟨t, d, f, ?_, rfl, ?_⟩
      · exact hperm.mem_iff.mp (hs ▸ List.mem_cons_self _ _)
      · intro t' d' f' hx'
        have hx'' : (t', d', f') ∈ List.insertionSort candLE (candidatesFuzzy st word) :=
          hperm.mem_iff.mpr hx'
        rw [hs] at hx''
        rcases List.mem_cons.mp hx'' with heq | htl
        · have hd := congrArg (fun p => p.2.1) heq
          have hf := congrArg (fun p => p.2.2) heq
          simp only at hd hf
          omega
        · have hrel : candLE (t, d, f) (t', d', f') := by
            rw [hs] at hsort
            exact List.rel_of_sorted_cons hsort _ htl
          exact hrel

theorem mem_candidatesFuzzy_spec {st : RankerState} {word t : String} {d f : ℕ}
    (hx : (t, d, f) ∈ candidatesFuzzy st word) :
    d = edit_distance word.data t.data ∧ d ≤ maxDist word ∧ f = termFreq st t := by
  unfold candidatesFuzzy at hx
  obtain ⟨l, hl, hxl⟩ := List.mem_flatten.mp hx
  obtain ⟨k, _, rfl⟩ := List.mem_map.mp hl
  have hspec := mem_blockCands_spec hxl
  exact ⟨hspec.1, hspec.2.1, hspec.2.2.2⟩

/-! ## Claim theorems: C2 -/

/-- C2 (amended): when the first three correction stages fail, the
fuzzy stage of `correct_spelling` behaves as the claim describes it
for tokens of length ≥ 3 — the candidate set coincides with the
claim's candidate set (blocks keyed by the token's own 3-character
prefix plus every single-character substitution of it, filtered by the
length gap and an edit distance within
`max_distance = min(3, len/2)`), the accepted correction is a
candidate of minimal (distance, -frequency) returned with its
distance, and an empty candidate set returns the token with the
sentinel distance 999 — while tokens of length < 3 (contrary to the
claim's `min(3, len(token))` search set) search no blocks at all and
always return the sentinel. -/
theorem C2_fuzzy_stage (st : RankerState) (word : String)
    (h1 : find_term_in_dictionary st word = false)
    (h2 : ∀ c, lookupA common_typos word = some c →
      find_term_in_dictionary st c = false)
    (h3 : stage3 st word = none) :
    (3 ≤ word.length →
      ∀ x, x ∈ candidatesFuzzy st word ↔ x ∈ claimCandidates st word) ∧
    (word.length < 3 → correct_spelling st word = (word, false, 999)) ∧
    (candidatesFuzzy st word = [] → correct_spelling st word = (word, false, 999)) ∧
    (candidatesFuzzy st word ≠ [] →
      ∃ t d f, (t, d, f) ∈ candidatesFuzzy st word ∧
        correct_spelling st word = (t, false, d) ∧
        d = edit_distance word.data t.data ∧ d ≤ maxDist word ∧ f = termFreq st t ∧
        ∀ t' d' f', (t', d', f') ∈ candidatesFuzzy st word →
          d < d' ∨ (d = d' ∧ f' ≤ f)) := by
  have hcs := correct_spelling_stages_fail h1 h2 h3
  refine ⟨fun hlen x => mem_candidatesFuzzy_iff_claim hlen x, ?_, ?_, ?_⟩
  · intro hshort
    rw [hcs, stage4_spec.1 (candidatesFuzzy_short hshort)]
  · intro hempty
    rw [hcs, stage4_spec.1 hempty]
  · intro hne
    obtain ⟨t, d, f, hmem, hres, hmin⟩ := stage4_spec.2 hne
    obtain ⟨hd, hdle, hf⟩ := mem_candidatesFuzzy_spec hmem
    exact ⟨t, d, f, hmem, hcs ▸ hres, hd, hdle, hf, hmin⟩

/-- Counterexample to C2 as frozen: for the 2-character token `qx` in
a state whose blocks contain `ax`, the claim's own candidate set
(searching the keys obtained by substituting one of the first
`min(3, len(token)) = 2` characters) is nonempty — it finds `ax` at
distance 1 = max_distance — yet the code performs no fuzzy search for
tokens shorter than 3 characters and returns the sentinel result. -/
theorem C2_fuzzy_stage_counterexample :
    claimCandidates stShort "qx" = [("ax", 1, 0)] ∧
    correct_spelling stShort "qx" = ("qx", false, 999) := by
  constructor
  · decide
  · decide

/-- Witness for C2 (amended) at a concrete state: the misspelled token
`penxxkit` (not in the vocabulary, not a known typo, not a prefix of a
block term) is fuzzy-corrected. -/
theorem C2_fuzzy_stage_witness :
    candidatesFuzzy stFuzzy "penxxkit" ≠ [] ∧
    ∃ t d f, (t, d, f) ∈ candidatesFuzzy stFuzzy "penxxkit" ∧
      correct_spelling stFuzzy "penxxkit" = (t, false, d) ∧
      d = edit_distance "penxxkit".data t.data ∧ d ≤ maxDist "penxxkit" ∧
      f = termFreq stFuzzy t ∧
      ∀ t' d' f', (t', d', f') ∈ candidatesFuzzy stFuzzy "penxxkit" →
        d < d' ∨ (d = d' ∧ f' ≤ f) := by
  have hne : candidatesFuzzy stFuzzy "penxxkit" ≠ [] := by decide
  exact ⟨hne,
    (C2_fuzzy_stage stFuzzy "penxxkit" (by decide)
      (by
        intro c hc
        rw [show lookupA common_typos "penxxkit" = none from by decide] at hc
        cases hc)
      (by decide)).2.2.2 hne⟩

/-! ## Lemmas: BM25 scoring -/

theorem compute_idf_eq {st : RankerState} {t : String} {ps : List (String × ℕ)}
    (h : lookupA st.index t = some ps) :
    compute_idf st t = idfSpecFormula st.numDocs (termFreq st t) := by
  unfold compute_idf idfSpecFormula termFreq
  rw [h]
  simp only
  have h1 : (1.0 : ℝ) = 1 := by norm_num
  rw [h1]
  split_ifs <;> ring

theorem tfOf_eq {st : RankerState} {t doc : String} {ps : List (String × ℕ)} {tf : ℕ}
    (h : lookupA st.index t = some ps) (h2 : lookupA ps doc = some tf) :
    tfOf st t doc = tf := by
  unfold tfOf
  rw [h]
  simp [h2]

theorem bm25_foldl_eq (st : RankerState) (doc : String) (dl : ℕ) :
    ∀ (qts : List String) (a : ℝ),
      qts.foldl (fun score term =>
        match lookupA st.index term with
        | none => score
        | some ps =>
          match lookupA ps doc with
          | none => score
          | some tf =>
            score + compute_idf st term *
              (((tf : ℝ) * (K1 + 1)) /
                ((tf : ℝ) + K1 * (1 - B + B * ((dl : ℝ) / st.avgdl))))) a
      = a + ((qts.filter (fun t => inPostings st t doc)).map (fun t =>
          idfSpecFormula st.numDocs (termFreq st t) *
            ((tfOf st t doc : ℝ) * (K1 + 1)) /
            ((tfOf st t doc : ℝ) + K1 * (1 - B + B * ((dl : ℝ) / st.avgdl))))).sum := by
  intro qts
  induction qts with
  | nil => intro a; simp
  | cons t ts ih =>
    intro a
    rw [List.foldl_cons]
    cases hidx : lookupA st.index t with
    | none =>
      have hnp : inPostings st t doc = false := by
        simp [inPostings, hidx]
      have hfil : (t :: ts).filter (fun u => inPostings st u doc) =
          ts.filter (fun u => inPostings st u doc) := by
        simp [List.filter_cons, hnp]
      rw [hfil]
      simp only [hidx]
      exact ih a
    | some ps =>
      cases hps : lookupA ps doc with
      | none =>
        have hnp : inPostings st t doc = false := by
          simp [inPostings, hidx, hps]
        have hfil : (t :: ts).filter (fun u => inPostings st u doc) =
            ts.filter (fun u => inPostings st u doc) := by
          simp [List.filter_cons, hnp]
        rw [hfil]
        simp only [hidx, hps]
        exact ih a
      | some tf =>
        have hp : inPostings st t doc = true := by
          simp [inPostings, hidx, hps]
        have hfil : (t :: ts).filter (fun u => inPostings st u doc) =
            t :: ts.filter (fun u => inPostings st u doc) := by
          simp [List.filter_cons, hp]
        rw [hfil]
        simp only [hidx, hps, List.map_cons, List.sum_cons]
        rw [ih]
        rw [compute_idf_eq hidx, tfOf_eq hidx hps]
        ring

/-! ## Claim theorems: C1 -/

/-- C1: for a candidate document with stored length 0 (or absent) the
BM25 score is exactly 0; for stored length > 0, `compute_bm25_score`
returns the sum, over query terms present both in the index and in the
document's postings, of
`idf(t) * (tf*(K1+1)) / (tf + K1*(1 - B + B*(dl/avgdl)))` with the
spec's damped idf (`bm25SpecSum`). -/
theorem C1_bm25_score (st : RankerState) (query_terms : List String) (doc : String) :
    (dlOf st doc = 0 → compute_bm25_score st query_terms doc = 0) ∧
    (0 < dlOf st doc →
      compute_bm25_score st query_terms doc = bm25SpecSum st query_terms doc) := by
  constructor
  · intro h
    unfold compute_bm25_score
    simp only [h]
    norm_num
  · intro h
    unfold compute_bm25_score bm25SpecSum
    simp only
    rw [if_neg (by omega), bm25_foldl_eq st doc (dlOf st doc) query_terms 0.0]
    norm_num

/-- Witness for C1: in `stBM`, the zero-length document `dz` scores 0
and the length-4 document `d1` scores exactly the specified sum. -/
theorem C1_bm25_score_witness :
    compute_bm25_score stBM ["ab"] "dz" = 0 ∧
    compute_bm25_score stBM ["ab"] "d1" = bm25SpecSum stBM ["ab"] "d1" :=
  ⟨(C1_bm25_score stBM ["ab"] "dz").1 (by decide),
   (C1_bm25_score stBM ["ab"] "d1").2 (by decide)⟩

/-! ## Lemmas and claim theorems: C3 (division guards) -/

theorem coverage_checked_isSome (st : RankerState) (query_terms : List String)
    (doc : String) : (compute_term_coverage_checked st query_terms doc).isSome := by
  unfold compute_term_coverage_checked
  by_cases hc : get_core_terms query_terms = []
  · simp [hc]
  · have hlen : (get_core_terms query_terms).length ≠ 0 := by
      intro h0
      exact hc (List.length_eq_zero.mp h0)
    have hcast : ((get_core_terms query_terms).length : ℝ) ≠ 0 := by
      exact_mod_cast hlen
    simp [hc, hcast]

theorem boostOneChecked_isSome (st : RankerState) (query_terms : List String)
    (core : List String) (domain_boost : ℝ) (ds : String × ℝ) :
    (boostOneChecked st query_terms core domain_boost ds).isSome := by
  unfold boostOneChecked
  dsimp only
  have hcov := coverage_checked_isSome st query_terms ds.1
  have hcore : ∀ p : String → Bool, 0 < core.countP p → (core.length : ℝ) ≠ 0 := by
    intro p hp
    have : 0 < core.length := lt_of_lt_of_le hp (List.countP_le_length p)
    exact_mod_cast Nat.pos_iff_ne_zero.mp this
  obtain ⟨m1, hm1⟩ : ∃ v, (if 0 < core.countP (fun t => inTitleIndex st t ds.1) then
      if (core.length : ℝ) = 0 then none
      else
        if (0.8 : ℝ) ≤ (core.countP (fun t => inTitleIndex st t ds.1) : ℝ) / (core.length : ℝ)
        then some (1.0 + TITLE_BOOST * 1.5)
        else if (0.6 : ℝ) ≤ (core.countP (fun t => inTitleIndex st t ds.1) : ℝ) / (core.length : ℝ)
        then some (1.0 + TITLE_BOOST * 1.2)
        else some (1.0 + TITLE_BOOST *
          ((core.countP (fun t => inTitleIndex st t ds.1) : ℝ) / (core.length : ℝ)))
    else some 1.0) = some v := by
    by_cases h1 : 0 < core.countP (fun t => inTitleIndex st t ds.1)
    · rw [if_pos h1, if_neg (fun h => hcore _ h1 h)]
      split_ifs <;> exact ⟨_, rfl⟩
    · rw [if_neg h1]
      exact ⟨_, rfl⟩
  rw [hm1]
  dsimp only
  obtain ⟨m2, hm2⟩ : ∃ v, (if 0 < core.countP (fun t => inKeywordIndex st t ds.1) then
      if (core.length : ℝ) = 0 then none
      else some (m1 + KEYWORD_BOOST *
        ((core.countP (fun t => inKeywordIndex st t ds.1) : ℝ) / (core.length : ℝ)))
    else some m1) = some v := by
    by_cases h2 : 0 < core.countP (fun t => inKeywordIndex st t ds.1)
    · rw [if_pos h2, if_neg (fun h => hcore _ h2 h)]
      exact ⟨_, rfl⟩
    · rw [if_neg h2]
      exact ⟨_, rfl⟩
  rw [hm2]
  dsimp only
  cases hco : compute_term_coverage_checked st query_terms ds.1 with
  | none => rw [hco] at hcov; cases hcov
  | some cov => rfl

theorem bm25CheckedAux_isSome (st : RankerState) (doc : String) (dl : ℕ)
    (havg : 0 < st.avgdl) :
    ∀ (qts : List String) (a : ℝ), (bm25CheckedAux st doc dl qts a).isSome := by
  intro qts
  induction qts with
  | nil => intro a; rfl
  | cons t ts ih =>
    intro a
    unfold bm25CheckedAux
    cases lookupA st.index t with
    | none => exact ih a
    | some ps =>
      dsimp only
      cases lookupA ps doc with
      | none => exact ih a
      | some tf =>
        dsimp only
        rw [if_neg (ne_of_gt havg)]
        have hx : (0 : ℝ) ≤ (dl : ℝ) / st.avgdl :=
          div_nonneg (Nat.cast_nonneg dl) (le_of_lt havg)
        have htf : (0 : ℝ) ≤ (tf : ℝ) := Nat.cast_nonneg tf
        have hden : (0 : ℝ) < (tf : ℝ) + K1 * (1 - B + B * ((dl : ℝ) / st.avgdl)) := by
          unfold K1 B
          nlinarith
        rw [if_neg (ne_of_gt hden)]
        exact ih _

/-- C3 (amended): the divisions by the core-term count are guarded —
`compute_term_coverage` by its explicit empty-core check and
`apply_boosting` by the positive-match conditions — so the checked
variants never reach a division by zero; and `compute_bm25_score`
guards the zero document length but NOT `avgdl`: its checked variant
reaches no division by zero whenever `avgdl > 0`, while the
counterexample shows `avgdl = 0` reaching the unguarded `dl / avgdl`. -/
theorem C3_division_guards :
    (∀ (st : RankerState) (q : List String) (d : String),
      (compute_term_coverage_checked st q d).isSome) ∧
    (∀ (st : RankerState) (q : List String) (ds : List (String × ℝ)) (db : ℝ),
      (apply_boosting_checked st q ds db).isSome) ∧
    (∀ (st : RankerState) (q : List String) (d : String), 0 < st.avgdl →
      (compute_bm25_score_checked st q d).isSome) := by
  refine ⟨coverage_checked_isSome, ?_, ?_⟩
  · intro st q ds db
    unfold apply_boosting_checked
    induction ds with
    | nil => rfl
    | cons d rest ih =>
      rw [List.foldr_cons]
      have h1 := boostOneChecked_isSome st q (get_core_terms q) db d
      cases hb : boostOneChecked st q (get_core_terms q) db d with
      | none => rw [hb] at h1; cases h1
      | some b =>
        cases hr : rest.foldr (fun ds acc =>
          match boostOneChecked st q (get_core_terms q) db ds, acc with
          | some b, some l => some (b :: l)
          | _, _ => none) (some []) with
        | none => rw [hr] at ih; cases ih
        | some l => simp
  · intro st q d havg
    unfold compute_bm25_score_checked
    by_cases hdl : dlOf st d = 0
    · simp [hdl]
    · rw [if_neg hdl]
      exact bm25CheckedAux_isSome st d (dlOf st d) havg q 0.0

/-- Counterexample to C3 as frozen: with `avgdl = 0` and a candidate
document of positive stored length containing a query term, the
checked scorer reaches the division `dl / avgdl` with a zero
denominator (`compute_bm25_score` has no zero check on `avgdl`). -/
theorem C3_division_guards_counterexample :
    compute_bm25_score_checked stZeroAvg ["ab"] "d1" = none ∧ stZeroAvg.avgdl = 0 := by
  constructor
  · unfold compute_bm25_score_checked bm25CheckedAux
    norm_num [stZeroAvg, dlOf, lookupA]
  · rfl

/-- Witness for C3 (amended): the guarded clauses applied at a
concrete state with `avgdl = 4 > 0`. -/
theorem C3_division_guards_witness :
    (compute_term_coverage_checked stBM ["ab"] "d1").isSome ∧
    (apply_boosting_checked stBM ["ab"] [("d1", 2.0)] 1.0).isSome ∧
    (compute_bm25_score_checked stBM ["ab"] "d1").isSome :=
  ⟨C3_division_guards.1 stBM ["ab"] "d1",
   C3_division_guards.2.1 stBM ["ab"] [("d1", 2.0)] 1.0,
   C3_division_guards.2.2 stBM ["ab"] "d1" (by norm_num [stBM])⟩

/-! ## Lemmas and claim theorem: C7 (monotonicity) -/

theorem bm25_foldl_eq_total (st : RankerState) (doc : String) (dl : ℕ) :
    ∀ (qts : List String) (a : ℝ),
      qts.foldl (fun score term =>
        match lookupA st.index term with
        | none => score
        | some ps =>
          match lookupA ps doc with
          | none => score
          | some tf =>
            score + compute_idf st term *
              (((tf : ℝ) * (K1 + 1)) /
                ((tf : ℝ) + K1 * (1 - B + B * ((dl : ℝ) / st.avgdl))))) a
      = a + (qts.map (fullContrib st doc dl)).sum := by
  intro qts
  induction qts with
  | nil => intro a; simp
  | cons t ts ih =>
    intro a
    rw [List.foldl_cons, List.map_cons, List.sum_cons]
    cases hidx : lookupA st.index t with
    | none =>
      have hfc : fullContrib st doc dl t = 0 := by
        simp [fullContrib, hidx]
      simp only [hidx]
      rw [ih a, hfc]
      ring
    | some ps =>
      cases hps : lookupA ps doc with
      | none =>
        have hfc : fullContrib st doc dl t = 0 := by
          simp [fullContrib, hidx, hps]
        simp only [hidx, hps]
        rw [ih a, hfc]
        ring
      | some tf =>
        have hfc : fullContrib st doc dl t =
            compute_idf st t *
              (((tf : ℝ) * (K1 + 1)) /
                ((tf : ℝ) + K1 * (1 - B + B * ((dl : ℝ) / st.avgdl)))) := by
          simp [fullContrib, hidx, hps]
        simp only [hidx, hps]
        rw [ih, hfc]
        ring

theorem compute_idf_nonneg (st : RankerState) (t : String)
    (hdf : ∀ u ps, lookupA st.index u = some ps →
      1 ≤ ps.length ∧ ps.length ≤ st.numDocs) :
    0 ≤ compute_idf st t := by
  unfold compute_idf
  cases hidx : lookupA st.index t with
  | none => dsimp only; norm_num
  | some ps =>
    dsimp only
    have hN : (ps.length : ℝ) ≤ (st.numDocs : ℝ) := by
      exact_mod_cast (hdf t ps hidx).2
    have hlog : 0 ≤ Real.log (((st.numDocs : ℝ) - (ps.length : ℝ) + 0.5) /
        ((ps.length : ℝ) + 0.5) + 1.0) := by
      apply Real.log_nonneg
      have hq : 0 ≤ ((st.numDocs : ℝ) - (ps.length : ℝ) + 0.5) /
          ((ps.length : ℝ) + 0.5) := by
        apply div_nonneg
        · linarith
        · positivity
      linarith
    split_ifs <;> nlinarith

theorem fullContrib_nonneg (st : RankerState) (doc : String) (dl : ℕ) (t : String)
    (hdf : ∀ u ps, lookupA st.index u = some ps →
      1 ≤ ps.length ∧ ps.length ≤ st.numDocs)
    (havg : 0 ≤ st.avgdl) :
    0 ≤ fullContrib st doc dl t := by
  unfold fullContrib
  cases hidx : lookupA st.index t with
  | none => dsimp only; norm_num
  | some ps =>
    dsimp only
    cases hps : lookupA ps doc with
    | none => dsimp only; norm_num
    | some tf =>
      dsimp only
      apply mul_nonneg (compute_idf_nonneg st t hdf)
      apply div_nonneg
      · have : (0 : ℝ) ≤ (tf : ℝ) := Nat.cast_nonneg tf
        unfold K1
        nlinarith
      · have hx : (0 : ℝ) ≤ (dl : ℝ) / st.avgdl :=
          div_nonneg (Nat.cast_nonneg dl) havg
        have : (0 : ℝ) ≤ (tf : ℝ) := Nat.cast_nonneg tf
        unfold K1 B
        nlinarith

/-- C7: BM25 is monotone in the query terms — for `q ⊆ q'` as
multisets, over a well-formed index (every indexed term has
`1 ≤ df ≤ N` and `avgdl ≥ 0`), each per-term contribution is
non-negative, so `compute_bm25_score` cannot decrease when query terms
are added. -/
theorem C7_bm25_monotone (st : RankerState) (doc : String) (q q' : List String)
    (hsub : (q : Multiset String) ≤ (q' : Multiset String))
    (hdf : ∀ u ps, lookupA st.index u = some ps →
      1 ≤ ps.length ∧ ps.length ≤ st.numDocs)
    (havg : 0 ≤ st.avgdl) :
    compute_bm25_score st q doc ≤ compute_bm25_score st q' doc := by
  unfold compute_bm25_score
  simp only
  by_cases hdl : dlOf st doc = 0
  · rw [if_pos hdl, if_pos hdl]
  · rw [if_neg hdl, if_neg hdl, bm25_foldl_eq_total st doc (dlOf st doc) q 0.0,
      bm25_foldl_eq_total st doc (dlOf st doc) q' 0.0]
    have hmono : (q.map (fullContrib st doc (dlOf st doc))).sum ≤
        (q'.map (fullContrib st doc (dlOf st doc))).sum := by
      obtain ⟨u, hu⟩ := Multiset.le_iff_exists_add.mp hsub
      have hq : (q.map (fullContrib st doc (dlOf st doc))).sum =
          ((q : Multiset String).map (fullContrib st doc (dlOf st doc))).sum := by
        simp
      have hq' : (q'.map (fullContrib st doc (dlOf st doc))).sum =
          ((q' : Multiset String).map (fullContrib st doc (dlOf st doc))).sum := by
        simp
      rw [hq, hq', hu, Multiset.map_add, Multiset.sum_add]
      have hnn : 0 ≤ (u.map (fullContrib st doc (dlOf st doc))).sum := by
        apply Multiset.sum_nonneg
        intro x hx
        obtain ⟨t, _, rfl⟩ := Multiset.mem_map.mp hx
        exact fullContrib_nonneg st doc (dlOf st doc) t hdf havg
      linarith
    linarith

/-- Witness for C7: duplicating the single matching query term in
`stBM` cannot decrease the score of `d1`. -/
theorem C7_bm25_monotone_witness :
    compute_bm25_score stBM ["ab"] "d1" ≤ compute_bm25_score stBM ["ab", "ab"] "d1" := by
  refine C7_bm25_monotone stBM "d1" ["ab"] ["ab", "ab"] ?_ ?_ ?_
  · decide
  · intro u ps h
    simp only [stBM, lookupA] at h
    split_ifs at h with ht
    obtain rfl : [("d1", 2)] = ps := Option.some.inj h
    exact ⟨by norm_num, by norm_num [stBM]⟩
  · norm_num [stBM]

/-! ## Claim theorems: C5 (coverage relaxation) and C9 (empty query) -/

/-- C5: the relaxed coverage filter (fraction 0.35) keeps every
document the strict filter (fraction `MIN_TERM_COVERAGE` = 0.65)
keeps: both threshold the same per-document match counts with
`max(1, floor(core_count * fraction))`, and the relaxed threshold is
never larger, so the relaxation never loses a strict candidate. -/
theorem C5_coverage_relaxation (st : RankerState) (query_terms : List String)
    (x : String × ℕ) (hx : x ∈ coverageFiltered st query_terms MIN_TERM_COVERAGE_PCT) :
    x ∈ coverageFiltered st query_terms 35 := by
  unfold coverageFiltered at hx ⊢
  rw [List.mem_filter] at hx ⊢
  refine ⟨hx.1, ?_⟩
  have h65 := hx.2
  simp only [decide_eq_true_eq] at h65 ⊢
  unfold MIN_TERM_COVERAGE_PCT at h65
  have hdiv : (get_core_terms query_terms).length * 35 / 100 ≤
      (get_core_terms query_terms).length * 65 / 100 :=
    Nat.div_le_div_right (Nat.mul_le_mul_left _ (by norm_num))
  omega

/-- Witness for C5: a document passing the strict filter also passes
the relaxed one. -/
theorem C5_coverage_relaxation_witness :
    ("d1", 1) ∈ coverageFiltered stFuzzy ["penyakit"] 35 :=
  C5_coverage_relaxation stFuzzy ["penyakit"] ("d1", 1) (by decide)

/-- C9: a query with no token of length > 1 after lower-casing and
whitespace splitting (in particular `""` and `"   "`) yields an empty
result list from `search` (the embedding is total, so no exception is
possible). -/
theorem C9_empty_query (st : RankerState) (query : String) (top_k : ℕ)
    (h : tokensOf query = []) : search st query top_k = [] := by
  have hpre : (preprocess_query st query).1 = [] := by
    unfold preprocess_query
    rw [h]
    rfl
  unfold search
  simp [hpre]

/-- Witness for C9: the empty and the all-whitespace query return no
results. -/
theorem C9_empty_query_witness :
    search stBM "" 5 = [] ∧ search stBM "   " 5 = [] :=
  ⟨C9_empty_query stBM "" 5 (by decide), C9_empty_query stBM "   " 5 (by decide)⟩

/-! ## Lemmas and claim theorems: C10 (score floor) and C4 (shape) -/

theorem mem_filter_results_min {scores : List (String × ℝ)} {spec : Specificity}
    {x : String × ℝ} (hx : x ∈ filter_results scores spec) :
    MIN_SCORE_THRESHOLD ≤ x.2 := by
  unfold filter_results at hx
  by_cases hsc : scores = []
  · rw [if_pos hsc] at hx; cases hx
  · rw [if_neg hsc] at hx
    dsimp only at hx
    split_ifs at hx
    all_goals
      first
      | · have hx2 := List.mem_of_mem_take hx
          have hx3 := (List.perm_insertionSort scoreGE _).mem_iff.mp hx2
          have hf := (List.mem_filter.mp hx3).2
          simp only [decide_eq_true_eq] at hf
          exact le_trans (le_max_right _ _) hf
      | · have hf := (List.mem_filter.mp hx).2
          simp only [decide_eq_true_eq] at hf
          exact le_trans (le_max_right _ _) hf

theorem filter_results_length {scores : List (String × ℝ)} {spec : Specificity} :
    (filter_results scores spec).length ≤ (limitsFor spec).1 := by
  unfold filter_results
  by_cases hsc : scores = []
  · rw [if_pos hsc]
    simp
  · rw [if_neg hsc]
    dsimp only
    split_ifs
    all_goals
      first
      | · rw [List.length_take]
          exact min_le_left _ _
      | · omega

theorem mem_finalScoresOf {st : RankerState} {query_terms : List String}
    {spec : Specificity} {db : ℝ} {ds : String × ℝ}
    (h : ds ∈ finalScoresOf st query_terms spec db) :
    ds ∈ filter_results
      (apply_boosting st query_terms (scoredOf st query_terms) db) spec := by
  unfold finalScoresOf at h
  dsimp only at h
  split_ifs at h with hrel
  · exact h
  · exact (List.mem_filter.mp h).1

theorem finalScoresOf_length {st : RankerState} {query_terms : List String}
    {spec : Specificity} {db : ℝ} :
    (finalScoresOf st query_terms spec db).length ≤
      (filter_results
        (apply_boosting st query_terms (scoredOf st query_terms) db) spec).length := by
  unfold finalScoresOf
  dsimp only
  split_ifs with hrel
  · exact le_refl _
  · exact List.length_filter_le _ _

/-- C10: every document returned by `search` has score at least
`MIN_SCORE_THRESHOLD` (8.0): `filter_results` keeps only documents at
or above `max(adaptive, MIN_SCORE_THRESHOLD)`, and the semantic
postfilter, its relaxation, the sort and the truncation only select
from that filtered set. -/
theorem C10_score_floor (st : RankerState) (query : String) (top_k : ℕ) :
    List.Forall (fun r => MIN_SCORE_THRESHOLD ≤ r.score) (search st query top_k) := by
  rw [List.forall_iff_forall_mem]
  intro r hr
  unfold search at hr
  dsimp only at hr
  split_ifs at hr with h1 h2
  · cases hr
  · cases hr
  · obtain ⟨ds, hds, rfl⟩ := List.mem_map.mp hr
    have hds2 := List.mem_of_mem_take hds
    have hds3 := (List.perm_insertionSort scoreGE _).mem_iff.mp hds2
    have hds4 := mem_finalScoresOf hds3
    exact mem_filter_results_min hds4

/-- C4: `search` returns a list sorted by descending score, containing
at most `top_k` entries, whose length never exceeds the
specificity-determined cap (25 for specific, 40 for moderate, 55 for
generic queries). -/
theorem C4_search_shape (st : RankerState) (query : String) (top_k : ℕ) :
    List.Pairwise (fun a b => b.score ≤ a.score) (search st query top_k) ∧
    (search st query top_k).length ≤ top_k ∧
    (search st query top_k).length ≤
      (limitsFor (analyze_query_specificity (preprocess_query st query).1)).1 := by
  unfold search
  dsimp only
  split_ifs with h1 h2
  · exact ⟨List.Pairwise.nil, Nat.zero_le _, Nat.zero_le _⟩
  · exact ⟨List.Pairwise.nil, Nat.zero_le _, Nat.zero_le _⟩
  · refine ⟨?_, ?_, ?_⟩
    · rw [List.pairwise_map]
      have hsorted : List.Pairwise scoreGE
          (List.insertionSort scoreGE
            (finalScoresOf st (preprocess_query st query).1
              (analyze_query_specificity (preprocess_query st query).1)
              (detect_query_domain (preprocess_query st query).1).2)) :=
        List.sorted_insertionSort scoreGE _
      have htake := hsorted.sublist (List.take_sublist top_k _)
      exact htake.imp (fun h => h)
    · rw [List.length_map, List.length_take]
      exact min_le_left _ _
    · rw [List.length_map, List.length_take]
      refine le_trans (min_le_right _ _) ?_
      rw [(List.perm_insertionSort scoreGE _).length_eq]
      exact le_trans finalScoresOf_length filter_results_length

end SearchEngine
